import Mathlib

/-!
# Verification of the acqdiv multi-tier alignment engine

A shallow embedding, in Lean 4, of the alignment core of the acqdiv
corpus-processing pipeline:

* the cross-tier repair heuristics of
  `acqdiv/parsers/chat/cleaners/TurkishCleaner.py`
  (`single_morph_word`, `separate_morph_word`, `cross_clean`,
  `unify_untranscribed`);
* the structural-compatibility test `struct_eqv` of
  `acqdiv/parsers/toolbox.py` and the untranscribed-marker substitution of
  `ToolboxFile.clean_utterance`;
* the word/morpheme construction of `CHATParser.next_utterance` in
  `acqdiv/parsers/xml/CHATParser.py`.

Python strings are modelled as `List Char`; Python lists as Lean lists.
`str.split(sep)` (which keeps empty fields and maps `""` to `[""]`),
`str.split()` (which collapses whitespace and maps `""` to `[]`) and
`' '.join` are reproduced exactly.  Regular expressions are specialised to
the concrete patterns the source compiles, with Python search/backtracking
semantics worked out for those patterns.
-/

/-- Python whitespace (`\s` over the characters the corpora use, and the
class `str.split()` splits on): space, tab, newline, carriage return,
vertical tab, form feed. -/
def isPyWS (c : Char) : Bool :=
  c = ' ' || c = '\t' || c = '\n' || c = '\r' || c = '\x0b' || c = '\x0c'

/-- Python `s.split(sep)` for a one-character separator class given by `p`:
every separator occurrence splits, empty fields are kept, and the empty
string yields `[[]]`. -/
def pySplitP (p : Char → Bool) : List Char → List (List Char)
  | [] => [[]]
  | c :: rest =>
    if p c then [] :: pySplitP p rest
    else
      match pySplitP p rest with
      | [] => [[c]]
      | t :: ts => (c :: t) :: ts

/-- `s.split(' ')`, as used by `single_morph_word` and
`separate_morph_word`. -/
def splitSp : List Char → List (List Char) :=
  pySplitP (fun c => c = ' ')

/-- `re.split(r'[+_]', s)`, as used by `separate_morph_word`. -/
def splitPU : List Char → List (List Char) :=
  pySplitP (fun c => c = '+' || c = '_')

/-- `' '.join(ts)`. -/
def joinSp : List (List Char) → List Char
  | [] => []
  | [t] => t
  | t :: t2 :: ts => t ++ ' ' :: joinSp (t2 :: ts)

theorem pySplitP_ne_nil (p : Char → Bool) (s : List Char) :
    pySplitP p s ≠ [] := by
  cases s with
  | nil => simp [pySplitP]
  | cons c rest =>
    simp only [pySplitP]
    split
    · simp
    · cases h : pySplitP p rest <;> simp

/-- Splitting on the single space character and re-joining with a space is
the identity (`' '.join(s.split(' ')) == s` in Python). -/
theorem joinSp_splitSp (s : List Char) : joinSp (splitSp s) = s := by
  induction s with
  | nil => rfl
  | cons c rest ih =>
    simp only [splitSp, pySplitP] at *
    by_cases hc : c = ' '
    · subst hc
      simp only [if_pos rfl]
      cases h : pySplitP (fun c => c = ' ') rest with
      | nil => exact absurd h (pySplitP_ne_nil _ rest)
      | cons t ts =>
        rw [h] at ih
        show joinSp ([] :: t :: ts) = ' ' :: rest
        exact congrArg (fun x => ' ' :: x) ih
    · rw [if_neg (by simpa using hc)]
      cases h : pySplitP (fun c => c = ' ') rest with
      | nil => exact absurd h (pySplitP_ne_nil _ rest)
      | cons t ts =>
        rw [h] at ih
        show joinSp ((c :: t) :: ts) = c :: rest
        cases ts with
        | nil =>
          rw [joinSp] at ih ⊢
          simp [ih]
        | cons t2 ts2 =>
          rw [joinSp] at ih ⊢
          simpa using ih

theorem lengthDropWhileLe {α : Type} (p : α → Bool) (l : List α) :
    (l.dropWhile p).length ≤ l.length := by
  induction l with
  | nil => simp
  | cons a l ih =>
    rw [List.dropWhile_cons]
    split
    · exact Nat.le_succ_of_le ih
    · exact Nat.le_refl _

/-- Python `s.split()`: split on runs of whitespace, dropping empty
fields (so the empty string yields no token). -/
def pySplitWS : List Char → List (List Char)
  | [] => []
  | c :: rest =>
    if isPyWS c then pySplitWS rest
    else (c :: List.takeWhile (fun d => !isPyWS d) rest)
         :: pySplitWS (List.dropWhile (fun d => !isPyWS d) rest)
termination_by s => s.length
decreasing_by
  · simp
  · have h := lengthDropWhileLe (fun d => !isPyWS d) rest
    simp only [List.length_cons]
    omega

/-- Token counter with a flag recording whether the previous character was
part of a token (a maximal whitespace-free run). -/
def ctAux : Bool → List Char → Nat
  | _, [] => 0
  | inTok, c :: rest =>
    if isPyWS c then ctAux false rest
    else (if inTok then 0 else 1) + ctAux true rest

/-- The number of whitespace-separated tokens of a string
(`len(s.split())`). -/
def countTokens (s : List Char) : Nat := ctAux false s

theorem ctAux_true_eq_dropWhile (t : List Char) :
    ctAux true t = ctAux false (List.dropWhile (fun d => !isPyWS d) t) := by
  induction t with
  | nil => rfl
  | cons d r ih =>
    by_cases hd : isPyWS d
    · simp [ctAux, List.dropWhile, hd]
    · simp [ctAux, List.dropWhile, hd, ih]

/-- The whitespace-collapsing splitter yields exactly `countTokens`
tokens. -/
theorem length_pySplitWS (s : List Char) :
    (pySplitWS s).length = countTokens s := by
  rw [countTokens]
  induction s using pySplitWS.induct with
  | case1 => simp [pySplitWS, ctAux]
  | case2 c rest hc ih =>
    rw [pySplitWS, if_pos hc]
    rw [ih]
    simp [ctAux, hc]
  | case3 c rest hc ih =>
    rw [pySplitWS, if_neg hc]
    simp only [List.length_cons]
    rw [ih, ← ctAux_true_eq_dropWhile]
    simp [ctAux, hc, Nat.add_comm]

/-! ## TurkishCleaner cross-tier repairs

Embedding of `TurkishCleaner.single_morph_word`, `separate_morph_word`
and `cross_clean` (`acqdiv/parsers/chat/cleaners/TurkishCleaner.py`,
lines 16-115). -/

/-- Python `'_' in w or '+' in w`. -/
def hasJoinSep (w : List Char) : Bool :=
  w.contains '_' || w.contains '+'

/-- Python `p in s` on strings: `p` occurs as a contiguous substring. -/
def isSubstr (p : List Char) : List Char → Bool
  | [] => p.isEmpty
  | c :: rest => p.isPrefixOf (c :: rest) || isSubstr p rest

/-- The merge done by `single_morph_word` when all its guards hold:
`del wwords[i+1]; wwords[i] += '_' + next_word`. -/
def mergeAt (ww : List (List Char)) (i : Nat) : List (List Char) :=
  ww.take i ++ [ww.getD i [] ++ '_' :: ww.getD (i + 1) []] ++ ww.drop (i + 2)

/-- The guard chain of `single_morph_word` at scan position `i`:
the morphological word holds a join separator, the orthographic word does
not, the orthographic word's first two characters occur in the
morphological word, a next orthographic word exists, and its first two
characters also occur in the morphological word. -/
def singleCondB (ww mw : List (List Char)) (i : Nat) : Bool :=
  hasJoinSep (mw.getD i []) && !hasJoinSep (ww.getD i [])
    && isSubstr ((ww.getD i []).take 2) (mw.getD i [])
    && decide (i + 1 < ww.length)
    && isSubstr ((ww.getD (i + 1) []).take 2) (mw.getD i [])

theorem singleCondB_lt {ww mw : List (List Char)} {i : Nat}
    (h : singleCondB ww mw i = true) : i + 1 < ww.length := by
  simp only [singleCondB, Bool.and_eq_true, decide_eq_true_eq] at h
  exact h.1.2

theorem mergeAt_length {ww : List (List Char)} {i : Nat}
    (h : i + 1 < ww.length) : (mergeAt ww i).length = ww.length - 1 := by
  simp only [mergeAt, List.length_append, List.length_take, List.length_drop,
    List.length_cons, List.length_nil]
  omega

/-- The scan loop of `single_morph_word`
(`while i < wwords_count and i < mwords_count`). -/
def singleLoop (ww mw : List (List Char)) (i : Nat) : List (List Char) :=
  if h : i < ww.length ∧ i < mw.length then
    if hc : singleCondB ww mw i = true then
      singleLoop (mergeAt ww i) mw (i + 1)
    else
      singleLoop ww mw (i + 1)
  else ww
termination_by ww.length - i
decreasing_by
  · have h2 := singleCondB_lt hc
    have h3 := mergeAt_length h2
    omega
  · omega

/-- `TurkishCleaner.single_morph_word`: merge two orthographic words that a
single morphological word (one POS tag) encodes joined by `_` or `+`.  The
morphology tier is returned unchanged. -/
def singleMorphWord (utterance morphTier : List Char) :
    List Char × List Char :=
  (joinSp (singleLoop (splitSp utterance) (splitSp morphTier) 0), morphTier)

/-- Scan for a `|` occurring before any whitespace (step of the
`\S+\|` part of the double-POS pattern). -/
def scanBarInRun : List Char → Bool
  | [] => false
  | c :: r => if c = '|' then true else if isPyWS c then false else scanBarInRun r

/-- Whether `\S+\|.*` matches a prefix-wise position of `t`: `t` starts
with a non-whitespace character and a further `|` follows before any
whitespace. -/
def hasSecondBar : List Char → Bool
  | [] => false
  | c :: r => !isPyWS c && scanBarInRun r

/-- Scanner for `re.search(r'\S+?\|(\S+\|.*)', s)`: find the first `|`
that is preceded by a non-whitespace character and followed by a further
`\S+\|`; the captured group runs from just past that first `|` up to the
first newline (Python `.` does not match `\n`). -/
def doublePosAux (prev : Char) : List Char → Option (List Char)
  | [] => none
  | c :: rest =>
    if c = '|' && !isPyWS prev && hasSecondBar rest then
      some (rest.takeWhile (fun d => d ≠ '\n'))
    else doublePosAux c rest

/-- `re.search(r'\S+?\|(\S+\|.*)', s)`, returning `group(1)` on a match
(the double-POS-tag test of `separate_morph_word`). -/
def doublePos : List Char → Option (List Char)
  | [] => none
  | c :: rest => doublePosAux c rest

/-- `del xs[i]` followed by inserting `pieces` at position `i`. -/
def replaceAt (xs : List (List Char)) (i : Nat) (pieces : List (List Char)) :
    List (List Char) :=
  xs.take i ++ pieces ++ xs.drop (i + 1)

/-- Number of join separators (`+`/`_`) in one token. -/
def sepsStr (t : List Char) : Nat :=
  t.countP (fun c => c = '+' || c = '_')

/-- Total number of join separators in a token list. -/
def sepsIn (l : List (List Char)) : Nat :=
  (l.map sepsStr).sum

theorem pySplitP_countP_zero (p : Char → Bool) (s : List Char) :
    ∀ t ∈ pySplitP p s, t.countP p = 0 := by
  induction s with
  | nil =>
    intro t ht
    simp [pySplitP] at ht
    simp [ht]
  | cons c rest ih =>
    intro t ht
    simp only [pySplitP] at ht
    by_cases hc : p c
    · rw [if_pos hc] at ht
      rcases List.mem_cons.mp ht with h | h
      · simp [h]
      · exact ih t h
    · rw [if_neg hc] at ht
      cases hsp : pySplitP p rest with
      | nil => exact absurd hsp (pySplitP_ne_nil p rest)
      | cons u us =>
        rw [hsp] at ht
        rcases List.mem_cons.mp ht with h | h
        · subst h
          rw [List.countP_cons]
          have hu : u.countP p = 0 := ih u (by rw [hsp]; exact List.mem_cons_self u us)
          simp [hu, hc]
        · exact ih t (by rw [hsp]; exact List.mem_cons_of_mem u h)

theorem sepsStr_takeWhile_le (q : Char → Bool) (t : List Char) :
    sepsStr (t.takeWhile q) ≤ sepsStr t :=
  (List.takeWhile_sublist q).countP_le _

theorem doublePosAux_seps_le {g : List Char} :
    ∀ (prev : Char) (s : List Char), doublePosAux prev s = some g →
      sepsStr g ≤ sepsStr s := by
  intro prev s
  induction s generalizing prev with
  | nil => intro h; simp [doublePosAux] at h
  | cons c rest ih =>
    intro h
    rw [doublePosAux] at h
    split at h
    · have hg : g = rest.takeWhile (fun d => d ≠ '\n') := by
        simpa using h.symm
      subst hg
      calc sepsStr (rest.takeWhile (fun d => d ≠ '\n'))
          ≤ sepsStr rest := sepsStr_takeWhile_le _ rest
        _ ≤ sepsStr (c :: rest) := by
            rw [sepsStr, sepsStr, List.countP_cons]; omega
    · calc sepsStr g ≤ sepsStr rest := ih c h
        _ ≤ sepsStr (c :: rest) := by
            rw [sepsStr, sepsStr, List.countP_cons]; omega

theorem doublePos_seps_le {s g : List Char} (h : doublePos s = some g) :
    sepsStr g ≤ sepsStr s := by
  cases s with
  | nil => simp [doublePos] at h
  | cons c rest =>
    calc sepsStr g ≤ sepsStr rest := doublePosAux_seps_le c rest h
      _ ≤ sepsStr (c :: rest) := by
          rw [sepsStr, sepsStr, List.countP_cons]; omega

theorem length_pySplitP (p : Char → Bool) (s : List Char) :
    (pySplitP p s).length = s.countP p + 1 := by
  induction s with
  | nil => simp [pySplitP]
  | cons c rest ih =>
    simp only [pySplitP]
    by_cases hc : p c
    · rw [if_pos hc, List.countP_cons]
      simp [ih, hc]
    · rw [if_neg hc, List.countP_cons]
      cases hsp : pySplitP p rest with
      | nil => exact absurd hsp (pySplitP_ne_nil p rest)
      | cons u us =>
        rw [hsp] at ih
        simp at ih
        simp [hc, ih]

theorem sepsIn_append (a b : List (List Char)) :
    sepsIn (a ++ b) = sepsIn a + sepsIn b := by
  simp [sepsIn]

theorem sepsIn_cons (t : List Char) (l : List (List Char)) :
    sepsIn (t :: l) = sepsStr t + sepsIn l := by
  simp [sepsIn]

theorem sepsIn_drop_eq {mw : List (List Char)} {i : Nat} (h : i < mw.length) :
    sepsIn (mw.drop i) = sepsStr (mw.getD i []) + sepsIn (mw.drop (i + 1)) := by
  rw [List.drop_eq_getElem_cons h, sepsIn_cons, List.getD_eq_getElem mw [] h]

theorem sepsIn_tail_splitPU (g : List Char) :
    sepsIn (splitPU g).tail = 0 := by
  have hz := pySplitP_countP_zero (fun c => c = '+' || c = '_') g
  have : ∀ t ∈ (splitPU g).tail, sepsStr t = 0 := by
    intro t ht
    exact hz t (List.mem_of_mem_tail ht)
  rw [sepsIn]
  rw [List.sum_eq_zero]
  intro x hx
  rcases List.mem_map.mp hx with ⟨t, ht, rfl⟩
  exact this t ht

/-- Termination measure for the `separate_morph_word` scan: remaining
positions plus twice the join separators still ahead (splitting a matched
token consumes one separator per extra inserted token). -/
def sepMeasure (mw : List (List Char)) (i : Nat) : Nat :=
  (mw.length - i) + 2 * sepsIn (mw.drop i)

theorem replaceAt_drop {mw : List (List Char)} {i : Nat}
    (pieces : List (List Char)) (hi : i < mw.length) (hp : pieces ≠ []) :
    (replaceAt mw i pieces).drop (i + 1) = pieces.tail ++ mw.drop (i + 1) := by
  rw [replaceAt, List.append_assoc]
  have hlen : (mw.take i).length = i := by
    rw [List.length_take]; omega
  have h1 : i + 1 = (mw.take i).length + 1 := by omega
  rw [h1, List.drop_append]
  cases pieces with
  | nil => exact absurd rfl hp
  | cons q qs => simp

theorem replaceAt_length {mw : List (List Char)} {i : Nat}
    (pieces : List (List Char)) (hi : i < mw.length) :
    (replaceAt mw i pieces).length = i + pieces.length + (mw.length - (i + 1)) := by
  simp only [replaceAt, List.length_append, List.length_take, List.length_drop]
  omega

theorem sepMeasure_match {mw : List (List Char)} {i : Nat} {g : List Char}
    (hi : i < mw.length) (hm : doublePos (mw.getD i []) = some g) :
    sepMeasure (replaceAt mw i (splitPU g)) (i + 1) < sepMeasure mw i := by
  have hpne := pySplitP_ne_nil (fun c => c = '+' || c = '_') g
  have hdrop := replaceAt_drop (splitPU g) hi hpne
  have hlen := replaceAt_length (splitPU g) hi
  have hk : (splitPU g).length = sepsStr g + 1 := by
    rw [splitPU, length_pySplitP, sepsStr]
  have hgle : sepsStr g ≤ sepsStr (mw.getD i []) := doublePos_seps_le hm
  have hsd := sepsIn_drop_eq hi
  rw [sepMeasure, sepMeasure, hdrop, hlen, sepsIn_append, sepsIn_tail_splitPU,
    hk, hsd]
  omega

/-- The scan loop of `separate_morph_word`: on a double-POS match the
morphological token is replaced by its `[+_]`-split pieces (the whole
complex's POS tag was already discarded by taking `group(1)`), and if the
orthographic token holds a join separator it is split the same way. -/
def sepLoop (ww mw : List (List Char)) (i : Nat) :
    List (List Char) × List (List Char) :=
  if h : i < ww.length ∧ i < mw.length then
    match hm : doublePos (mw.getD i []) with
    | some g =>
      sepLoop
        (if hasJoinSep (ww.getD i [])
         then replaceAt ww i (splitPU (ww.getD i []))
         else ww)
        (replaceAt mw i (splitPU g)) (i + 1)
    | none => sepLoop ww mw (i + 1)
  else (ww, mw)
termination_by sepMeasure mw i
decreasing_by
  · exact sepMeasure_match h.2 hm
  · rw [sepMeasure, sepMeasure, sepsIn_drop_eq h.2]
    omega

/-- `TurkishCleaner.separate_morph_word`: split a morphological token that
carries two POS tags (a complex of two morphological words) into its
constituent words, discarding the complex's own POS tag, and split the
orthographic token correspondingly when it is joined by `+`/`_`. -/
def separateMorphWord (utterance morphTier : List Char) :
    List Char × List Char :=
  let p := sepLoop (splitSp utterance) (splitSp morphTier) 0
  (joinSp p.1, joinSp p.2)

/-- One repair pass over an (utterance, morphology tier) pair as composed
in `TurkishCleaner.cross_clean`: `single_morph_word` followed by
`separate_morph_word`. -/
def repairPass (utterance morphTier : List Char) : List Char × List Char :=
  let p := singleMorphWord utterance morphTier
  separateMorphWord p.1 p.2

/-- `TurkishCleaner.cross_clean`: the repair pass applied for the actual
utterance and then for the target utterance, the morphology tier being
threaded through; all three morphology tiers are returned as the final
repaired tier. -/
def crossClean (actualUtt targetUtt segTier glossTier posTier : List Char) :
    List Char × List Char × List Char × List Char × List Char :=
  let morTier := segTier
  let p1 := singleMorphWord actualUtt morTier
  let p2 := separateMorphWord p1.1 p1.2
  let p3 := singleMorphWord targetUtt p2.2
  let p4 := separateMorphWord p3.1 p3.2
  (p2.1, p4.1, p4.2, p4.2, p4.2)

/-! ## Untranscribed-material unification

Embedding of `TurkishCleaner.unify_untranscribed`
(`re.compile(r'(^|\s)(xxx|y{3,}|www)(\s|$|\.)').sub(r'\1???\3', s)`) and of
the marker substitution in `ToolboxFile.clean_utterance`
(`re.sub('xxx?|www|\*{3}', '???', s)`). -/

/-- Match of the third group `(\s|$|\.)` at the start of `t`, with Python
alternation order; returns the consumed text and the remainder. -/
def matchG3 : List Char → Option (List Char × List Char)
  | [] => some ([], [])
  | c :: r =>
    if isPyWS c then some ([c], r)
    else if c = '.' then some (['.'], r)
    else none

/-- First alternative of group 2: the literal `xxx`, followed by a
group-3 match. -/
def matchXXX : List Char → Option (List Char × List Char × List Char)
  | 'x' :: 'x' :: 'x' :: r =>
    (matchG3 r).map (fun q => (['x', 'x', 'x'], q.1, q.2))
  | _ => none

/-- Second alternative of group 2: `y{3,}`, greedy, followed by a group-3
match.  No shorter run than the maximal one can save a failing third group
(the next character would be `y`), so only the maximal run is tried. -/
def matchYRun (s : List Char) : Option (List Char × List Char × List Char) :=
  if (s.takeWhile (fun c => c = 'y')).length ≥ 3 then
    (matchG3 (s.drop (s.takeWhile (fun c => c = 'y')).length)).map
      (fun q => (s.takeWhile (fun c => c = 'y'), q.1, q.2))
  else none

/-- Third alternative of group 2: the literal `www`, followed by a
group-3 match. -/
def matchWWW : List Char → Option (List Char × List Char × List Char)
  | 'w' :: 'w' :: 'w' :: r =>
    (matchG3 r).map (fun q => (['w', 'w', 'w'], q.1, q.2))
  | _ => none

/-- Match of the second group `(xxx|y{3,}|www)` followed by the third at
the start of `s`, with Python alternation order; returns
(group 2, group 3, remainder). -/
def matchG2 (s : List Char) : Option (List Char × List Char × List Char) :=
  matchXXX s <|> matchYRun s <|> matchWWW s

/-- The whitespace-opened variant of the whole pattern: a `\s` character
starts the match and becomes group 1. -/
def tryMatchWS : List Char → Option (List Char × List Char × List Char × List Char)
  | c :: r =>
    if isPyWS c then (matchG2 r).map (fun q => ([c], q.1, q.2.1, q.2.2))
    else none
  | [] => none

/-- Attempt of the whole pattern `(^|\s)(xxx|y{3,}|www)(\s|$|\.)` at the
current scan position: `^` only when the position is the string start,
otherwise a whitespace character opens the match.  Returns
(group 1, group 2, group 3, remainder). -/
def tryMatchU (atStart : Bool) (s : List Char) :
    Option (List Char × List Char × List Char × List Char) :=
  (if atStart then
    (matchG2 s).map (fun q => (([] : List Char), q.1, q.2.1, q.2.2))
   else none) <|>
  tryMatchWS s

theorem matchG3_decomp {t g3 rest : List Char}
    (h : matchG3 t = some (g3, rest)) :
    g3 ++ rest = t ∧
      (g3 = [] ∨ (∃ w, g3 = [w] ∧ isPyWS w = true) ∨ g3 = ['.']) := by
  cases t with
  | nil =>
    simp [matchG3] at h
    simp [h.1, h.2]
  | cons c r =>
    rw [matchG3] at h
    by_cases hc : isPyWS c
    · rw [if_pos hc] at h
      simp at h
      refine ⟨by simp [← h.1, ← h.2], Or.inr (Or.inl ⟨c, by simp [← h.1], hc⟩)⟩
    · rw [if_neg hc] at h
      by_cases hd : c = '.'
      · rw [if_pos hd] at h
        simp at h
        exact ⟨by simp [← h.1, ← h.2, hd], Or.inr (Or.inr (by simp [← h.1]))⟩
      · rw [if_neg hd] at h
        simp at h

theorem dropLengthTakeWhile (p : Char → Bool) (l : List Char) :
    l.drop (l.takeWhile p).length = l.dropWhile p := by
  induction l with
  | nil => rfl
  | cons c r ih =>
    by_cases h : p c
    · simp [List.takeWhile_cons, List.dropWhile_cons, h, ih]
    · simp [List.takeWhile_cons, List.dropWhile_cons, h]

theorem matchXXX_decomp {s g2 g3 rest : List Char}
    (h : matchXXX s = some (g2, g3, rest)) :
    g2 ++ g3 ++ rest = s ∧ g2 ≠ [] ∧ (∀ c ∈ g2, isPyWS c = false) ∧
      (g3 = [] ∨ (∃ w, g3 = [w] ∧ isPyWS w = true) ∨ g3 = ['.']) := by
  rw [matchXXX.eq_def] at h
  split at h
  · rcases Option.map_eq_some'.mp h with ⟨⟨a3, arest⟩, hm, heq⟩
    have hd := matchG3_decomp hm
    simp only [Prod.mk.injEq] at heq
    obtain ⟨hg2, hg3, hrest⟩ := heq
    subst hg2; subst hg3; subst hrest
    refine ⟨by simp [hd.1], by simp, ?_, hd.2⟩
    intro c hc
    simp at hc
    simp [hc, isPyWS]
  · simp at h

theorem matchWWW_decomp {s g2 g3 rest : List Char}
    (h : matchWWW s = some (g2, g3, rest)) :
    g2 ++ g3 ++ rest = s ∧ g2 ≠ [] ∧ (∀ c ∈ g2, isPyWS c = false) ∧
      (g3 = [] ∨ (∃ w, g3 = [w] ∧ isPyWS w = true) ∨ g3 = ['.']) := by
  rw [matchWWW.eq_def] at h
  split at h
  · rcases Option.map_eq_some'.mp h with ⟨⟨a3, arest⟩, hm, heq⟩
    have hd := matchG3_decomp hm
    simp only [Prod.mk.injEq] at heq
    obtain ⟨hg2, hg3, hrest⟩ := heq
    subst hg2; subst hg3; subst hrest
    refine ⟨by simp [hd.1], by simp, ?_, hd.2⟩
    intro c hc
    simp at hc
    simp [hc, isPyWS]
  · simp at h

theorem matchYRun_decomp {s g2 g3 rest : List Char}
    (h : matchYRun s = some (g2, g3, rest)) :
    g2 ++ g3 ++ rest = s ∧ g2 ≠ [] ∧ (∀ c ∈ g2, isPyWS c = false) ∧
      (g3 = [] ∨ (∃ w, g3 = [w] ∧ isPyWS w = true) ∨ g3 = ['.']) := by
  rw [matchYRun] at h
  split at h
  · rcases Option.map_eq_some'.mp h with ⟨⟨a3, arest⟩, hm, heq⟩
    have hd := matchG3_decomp hm
    simp only [Prod.mk.injEq] at heq
    obtain ⟨hg2, hg3, hrest⟩ := heq
    subst hg2; subst hg3; subst hrest
    rename_i hrun
    constructor
    · rw [List.append_assoc, hd.1, dropLengthTakeWhile,
        List.takeWhile_append_dropWhile]
    refine ⟨?_, ?_, hd.2⟩
    · intro hnil
      rw [hnil] at hrun
      simp at hrun
    · intro c hc
      have := List.mem_takeWhile_imp hc
      simp at this
      simp [this, isPyWS]
  · simp at h

theorem matchG2_decomp {s g2 g3 rest : List Char}
    (h : matchG2 s = some (g2, g3, rest)) :
    g2 ++ g3 ++ rest = s ∧ g2 ≠ [] ∧ (∀ c ∈ g2, isPyWS c = false) ∧
      (g3 = [] ∨ (∃ w, g3 = [w] ∧ isPyWS w = true) ∨ g3 = ['.']) := by
  rw [matchG2] at h
  rcases (Option.orElse_eq_some _ _ _).mp h with h1 | ⟨_, h2⟩
  · exact matchXXX_decomp h1
  · rcases (Option.orElse_eq_some _ _ _).mp h2 with h3 | ⟨_, h4⟩
    · exact matchYRun_decomp h3
    · exact matchWWW_decomp h4

theorem tryMatchWS_decomp {s g1 g2 g3 rest : List Char}
    (h : tryMatchWS s = some (g1, g2, g3, rest)) :
    g1 ++ g2 ++ g3 ++ rest = s ∧
      (∃ w, g1 = [w] ∧ isPyWS w = true) ∧
      g2 ≠ [] ∧ (∀ c ∈ g2, isPyWS c = false) ∧
      (g3 = [] ∨ (∃ w, g3 = [w] ∧ isPyWS w = true) ∨ g3 = ['.']) := by
  cases s with
  | nil => simp [tryMatchWS] at h
  | cons c r =>
    rw [tryMatchWS] at h
    by_cases hws : isPyWS c
    · rw [if_pos hws] at h
      rcases Option.map_eq_some'.mp h with ⟨⟨a2, a3, arest⟩, hm, heq⟩
      have hd := matchG2_decomp hm
      simp only [Prod.mk.injEq] at heq
      obtain ⟨hg1, hg2, hg3, hrest⟩ := heq
      subst hg1; subst hg2; subst hg3; subst hrest
      refine ⟨?_, ⟨c, rfl, hws⟩, hd.2.1, hd.2.2.1, hd.2.2.2⟩
      have hds := hd.1
      simp only [List.append_assoc] at hds ⊢
      simp only [List.cons_append, List.nil_append]
      rw [hds]
    · rw [if_neg hws] at h
      simp at h

theorem tryMatchU_decomp {atStart : Bool} {s g1 g2 g3 rest : List Char}
    (h : tryMatchU atStart s = some (g1, g2, g3, rest)) :
    g1 ++ g2 ++ g3 ++ rest = s ∧
      (g1 = [] ∨ ∃ w, g1 = [w] ∧ isPyWS w = true) ∧
      g2 ≠ [] ∧ (∀ c ∈ g2, isPyWS c = false) ∧
      (g3 = [] ∨ (∃ w, g3 = [w] ∧ isPyWS w = true) ∨ g3 = ['.']) := by
  rw [tryMatchU] at h
  rcases (Option.orElse_eq_some _ _ _).mp h with h1 | ⟨_, h2⟩
  · split at h1
    · rcases Option.map_eq_some'.mp h1 with ⟨⟨a2, a3, arest⟩, hm, heq⟩
      have hd := matchG2_decomp hm
      simp only [Prod.mk.injEq] at heq
      obtain ⟨hg1, hg2, hg3, hrest⟩ := heq
      subst hg1; subst hg2; subst hg3; subst hrest
      exact ⟨by simpa using hd.1, Or.inl rfl, hd.2.1, hd.2.2.1, hd.2.2.2⟩
    · simp at h1
  · have hd := tryMatchWS_decomp h2
    exact ⟨hd.1, Or.inr hd.2.1, hd.2.2⟩

theorem tryMatchU_g2_length {atStart : Bool} {s g1 g2 g3 rest : List Char}
    (h : tryMatchU atStart s = some (g1, g2, g3, rest)) :
    rest.length < s.length := by
  have hd := tryMatchU_decomp h
  have hlen : g1.length + g2.length + g3.length + rest.length = s.length := by
    rw [← hd.1]; simp; omega
  have hg2 : 1 ≤ g2.length := by
    cases hg : g2 with
    | nil => exact absurd hg hd.2.2.1
    | cons a b => simp
  omega

/-- `TurkishCleaner.unify_untranscribed`, scanning left to right with
non-overlapping matches as `re.sub` does; the flag records whether the
scan position is the string start (where `^` can match). -/
def unifyGo (atStart : Bool) (s : List Char) : List Char :=
  match s with
  | [] => []
  | c :: rest =>
    match h : tryMatchU atStart (c :: rest) with
    | some (g1, _, g3, rest2) =>
      g1 ++ ('?' :: '?' :: '?' :: []) ++ g3 ++ unifyGo false rest2
    | none => c :: unifyGo false rest
termination_by s.length
decreasing_by
  · exact tryMatchU_g2_length h
  · simp

/-- `TurkishCleaner.unify_untranscribed`:
`re.compile(r'(^|\s)(xxx|y{3,}|www)(\s|$|\.)').sub(r'\1???\3', s)`. -/
def unifyUntranscribed (s : List Char) : List Char :=
  unifyGo true s

/-- The marker substitution of `ToolboxFile.clean_utterance`:
`re.sub('xxx?|www|\*{3}', '???', s)` (`xxx?` matches `xx` or, greedily,
`xxx`). -/
def toolboxSub : List Char → List Char
  | 'x' :: 'x' :: 'x' :: r => '?' :: '?' :: '?' :: toolboxSub r
  | 'x' :: 'x' :: r => '?' :: '?' :: '?' :: toolboxSub r
  | 'w' :: 'w' :: 'w' :: r => '?' :: '?' :: '?' :: toolboxSub r
  | '*' :: '*' :: '*' :: r => '?' :: '?' :: '?' :: toolboxSub r
  | c :: rest => c :: toolboxSub rest
  | [] => []

/-- State of the token counter after consuming `x` starting in state `b`:
inside a token exactly when the last character is not whitespace. -/
def endSt (b : Bool) (x : List Char) : Bool :=
  x.foldl (fun _ c => !isPyWS c) b

theorem ctAux_append (x y : List Char) :
    ∀ b, ctAux b (x ++ y) = ctAux b x + ctAux (endSt b x) y := by
  induction x with
  | nil => intro b; simp [endSt, ctAux]
  | cons c r ih =>
    intro b
    by_cases hc : isPyWS c
    · have he : endSt b (c :: r) = endSt false r := by
        simp [endSt, List.foldl_cons, hc]
      simp [ctAux, hc, he, ih]
    · have he : endSt b (c :: r) = endSt true r := by
        simp [endSt, List.foldl_cons, hc]
      simp [ctAux, hc, he, ih, Nat.add_assoc]

theorem ctAux_nonWS_run {X : List Char} (hne : X ≠ [])
    (hnw : ∀ c ∈ X, isPyWS c = false) :
    ∀ b, ctAux b X = (if b then 0 else 1) ∧ endSt b X = true := by
  induction X with
  | nil => exact absurd rfl hne
  | cons c r ih =>
    intro b
    have hc : isPyWS c = false := hnw c (List.mem_cons_self c r)
    have hcons : ctAux b (c :: r) = (if b then 0 else 1) + ctAux true r := by
      simp [ctAux, hc]
    cases r with
    | nil => simp [ctAux, endSt, hc]
    | cons d r2 =>
      have ihd := ih (by simp) (fun x hx => hnw x (List.mem_cons_of_mem c hx)) true
      have he : endSt b (c :: d :: r2) = endSt true (d :: r2) := by
        simp [endSt, List.foldl_cons, hc]
      rw [he, hcons, ihd.1]
      exact ⟨by simp, ihd.2⟩

theorem endSt_append (b : Bool) (x y : List Char) :
    endSt b (x ++ y) = endSt (endSt b x) y := by
  simp [endSt, List.foldl_append]

/-- The replacement `\1???\3` has the same token-skeleton as the matched
text `\1\2\3`: group 2 and `???` are both nonempty whitespace-free runs,
and groups 1 and 3 are carried over verbatim. -/
theorem ctAux_match_pieces {g2 : List Char} (g1 g3 u v : List Char)
    (hg2ne : g2 ≠ []) (hg2 : ∀ c ∈ g2, isPyWS c = false)
    (huv : ∀ b2, ctAux b2 u = ctAux b2 v) :
    ∀ b, ctAux b (g1 ++ ('?' :: '?' :: '?' :: []) ++ g3 ++ u)
        = ctAux b (g1 ++ g2 ++ g3 ++ v) := by
  intro b
  have main : ∀ (X w : List Char), X ≠ [] → (∀ c ∈ X, isPyWS c = false) →
      ctAux b (g1 ++ X ++ g3 ++ w)
        = ctAux b g1 + (if endSt b g1 then 0 else 1)
          + ctAux true g3 + ctAux (endSt true g3) w := by
    intro X w hne hnw
    rw [ctAux_append (g1 ++ X ++ g3) w, ctAux_append (g1 ++ X) g3,
        ctAux_append g1 X]
    simp only [endSt_append]
    rw [(ctAux_nonWS_run hne hnw (endSt b g1)).1,
        (ctAux_nonWS_run hne hnw (endSt b g1)).2]
  have hQne : ('?' :: '?' :: '?' :: ([] : List Char)) ≠ [] := by simp
  have hQw : ∀ c ∈ ('?' :: '?' :: '?' :: ([] : List Char)),
      isPyWS c = false := by
    intro c hc
    simp at hc
    simp [hc, isPyWS]
  rw [main _ u hQne hQw, main g2 v hg2ne hg2, huv (endSt true g3)]

theorem ctAux_unifyGo (atStart : Bool) (s : List Char) :
    ∀ b, ctAux b (unifyGo atStart s) = ctAux b s := by
  induction atStart, s using unifyGo.induct with
  | case1 atStart =>
    intro b
    rw [unifyGo]
  | case2 atStart c rest g1 g2 g3 rest2 h ih =>
    intro b
    have hd := tryMatchU_decomp h
    rw [unifyGo.eq_def]
    split
    · rename_i heq
      exact absurd heq (by simp)
    · rename_i xb cb restb heq
      injection heq with h1 h2
      subst h1
      subst h2
      split
      · rename_i g1b g2b g3b rest2b heq2
        rw [h] at heq2
        injection heq2 with heq3
        rw [Prod.mk.injEq, Prod.mk.injEq, Prod.mk.injEq] at heq3
        obtain ⟨e1, e2, e3, e4⟩ := heq3
        subst e1
        subst e3
        subst e4
        rw [← hd.1]
        exact ctAux_match_pieces g1 g3 (unifyGo false rest2) rest2
          hd.2.2.1 hd.2.2.2.1 ih b
      · rename_i heq2
        rw [h] at heq2
        cases heq2
  | case3 atStart c rest h ih =>
    intro b
    rw [unifyGo.eq_def]
    split
    · rename_i heq
      exact absurd heq (by simp)
    · rename_i xb cb restb heq
      injection heq with h1 h2
      subst h1
      subst h2
      split
      · rename_i g1b g2b g3b rest2b heq2
        rw [h] at heq2
        cases heq2
      · by_cases hc : isPyWS c
        · simp [ctAux, hc, ih]
        · simp [ctAux, hc, ih]

theorem ctAux_toolboxSub (s : List Char) :
    ∀ b, ctAux b (toolboxSub s) = ctAux b s := by
  have hq : isPyWS '?' = false := by decide
  have hx : isPyWS 'x' = false := by decide
  have hw : isPyWS 'w' = false := by decide
  have hst : isPyWS '*' = false := by decide
  induction s using toolboxSub.induct with
  | case1 r ih =>
    intro b
    rw [toolboxSub]
    simp [ctAux, hq, hx, ih]
  | case2 r hside ih =>
    intro b
    rw [toolboxSub]
    · simp [ctAux, hq, hx, ih]
    · exact hside
  | case3 r ih =>
    intro b
    rw [toolboxSub]
    simp [ctAux, hq, hw, ih]
  | case4 r ih =>
    intro b
    rw [toolboxSub]
    simp [ctAux, hq, hst, ih]
  | case5 c rest h1 h2 h3 h4 ih =>
    intro b
    have hstep : toolboxSub (c :: rest) = c :: toolboxSub rest := by
      rw [toolboxSub.eq_def]
      split
      · rename_i heq
        injection heq with e1 e2
        exact (h1 _ e1 e2).elim
      · rename_i hs1 heq
        injection heq with e1 e2
        exact (h2 _ e1 e2).elim
      · rename_i heq
        injection heq with e1 e2
        exact (h3 _ e1 e2).elim
      · rename_i heq
        injection heq with e1 e2
        exact (h4 _ e1 e2).elim
      · rename_i heq
        injection heq with e1 e2
        rw [e1, e2]
      · rename_i heq
        cases heq
    rw [hstep]
    by_cases hc : isPyWS c
    · simp [ctAux, hc, ih]
    · simp [ctAux, hc, ih]
  | case6 =>
    intro b
    rw [toolboxSub]

/-! ## Loop unfolding and pass-through lemmas for the repairs -/

theorem singleLoop_exit {ww mw : List (List Char)} {i : Nat}
    (h : ¬(i < ww.length ∧ i < mw.length)) : singleLoop ww mw i = ww := by
  rw [singleLoop.eq_def, dif_neg h]

theorem singleLoop_step_merge {ww mw : List (List Char)} {i : Nat}
    (h : i < ww.length ∧ i < mw.length) (hc : singleCondB ww mw i = true) :
    singleLoop ww mw i = singleLoop (mergeAt ww i) mw (i + 1) := by
  rw [singleLoop.eq_def, dif_pos h, dif_pos hc]

theorem singleLoop_step_skip {ww mw : List (List Char)} {i : Nat}
    (h : i < ww.length ∧ i < mw.length) (hc : ¬singleCondB ww mw i = true) :
    singleLoop ww mw i = singleLoop ww mw (i + 1) := by
  rw [singleLoop.eq_def, dif_pos h, dif_neg hc]

theorem singleLoop_no_cond (ww mw : List (List Char)) (i : Nat) :
    (∀ j, j < mw.length → singleCondB ww mw j = false) →
      singleLoop ww mw i = ww := by
  induction ww, mw, i using singleLoop.induct with
  | case1 ww mw i h hc ih =>
    intro hno
    rw [hno i h.2] at hc
    cases hc
  | case2 ww mw i h hc ih =>
    intro hno
    rw [singleLoop_step_skip h hc]
    exact ih hno
  | case3 ww mw i h =>
    intro hno
    exact singleLoop_exit h

/-- `single_morph_word` is a pass-through whenever its guard chain holds at
no scan position. -/
theorem singleMorphWord_no_cond (u m : List Char)
    (hno : ∀ j, j < (splitSp m).length →
      singleCondB (splitSp u) (splitSp m) j = false) :
    singleMorphWord u m = (u, m) := by
  rw [singleMorphWord, singleLoop_no_cond _ _ _ hno, joinSp_splitSp]

theorem sepLoop_exit {ww mw : List (List Char)} {i : Nat}
    (h : ¬(i < ww.length ∧ i < mw.length)) : sepLoop ww mw i = (ww, mw) := by
  rw [sepLoop.eq_def, dif_neg h]

theorem sepLoop_step_match {ww mw : List (List Char)} {i : Nat} {g : List Char}
    (h : i < ww.length ∧ i < mw.length)
    (hm : doublePos (mw.getD i []) = some g) :
    sepLoop ww mw i =
      sepLoop
        (if hasJoinSep (ww.getD i [])
         then replaceAt ww i (splitPU (ww.getD i []))
         else ww)
        (replaceAt mw i (splitPU g)) (i + 1) := by
  rw [sepLoop.eq_def, dif_pos h]
  split
  · rename_i gb heq
    rw [hm] at heq
    injection heq with e
    rw [e]
  · rename_i heq
    rw [hm] at heq
    cases heq

theorem sepLoop_step_skip {ww mw : List (List Char)} {i : Nat}
    (h : i < ww.length ∧ i < mw.length)
    (hm : doublePos (mw.getD i []) = none) :
    sepLoop ww mw i = sepLoop ww mw (i + 1) := by
  rw [sepLoop.eq_def, dif_pos h]
  split
  · rename_i gb heq
    rw [hm] at heq
    cases heq
  · rfl

theorem sepLoop_no_match_from (ww mw : List (List Char)) (i : Nat) :
    (∀ j, i ≤ j → j < mw.length → doublePos (mw.getD j []) = none) →
      sepLoop ww mw i = (ww, mw) := by
  induction ww, mw, i using sepLoop.induct with
  | case1 ww mw i h g hm ih =>
    intro hno
    rw [hno i (Nat.le_refl i) h.2] at hm
    cases hm
  | case2 ww mw i h hm ih =>
    intro hno
    rw [sepLoop_step_skip h hm]
    exact ih (fun j hj hlt => hno j (Nat.le_of_succ_le hj) hlt)
  | case3 ww mw i h =>
    intro hno
    exact sepLoop_exit h

/-- `separate_morph_word` is a pass-through whenever no morphological
token matches the double-POS pattern. -/
theorem separateMorphWord_no_match (u m : List Char)
    (hno : ∀ w ∈ splitSp m, doublePos w = none) :
    separateMorphWord u m = (u, m) := by
  rw [separateMorphWord]
  have hfrom : ∀ j, 0 ≤ j → j < (splitSp m).length →
      doublePos ((splitSp m).getD j []) = none := by
    intro j hj hlt
    refine hno _ ?_
    rw [List.getD_eq_getElem _ _ hlt]
    exact List.getElem_mem hlt
  rw [sepLoop_no_match_from _ _ 0 hfrom]
  simp [joinSp_splitSp]

theorem pySplitP_sepfree_append (p : Char → Bool) (w s : List Char)
    (hw : ∀ x ∈ w, p x = false) :
    pySplitP p (w ++ s) =
      (w ++ (pySplitP p s).headD []) :: (pySplitP p s).tail := by
  induction w with
  | nil =>
    cases h : pySplitP p s with
    | nil => exact absurd h (pySplitP_ne_nil p s)
    | cons t ts => simp [h]
  | cons c w2 ih =>
    have hc : p c = false := hw c (List.mem_cons_self c w2)
    have ih2 := ih (fun x hx => hw x (List.mem_cons_of_mem c hx))
    show pySplitP p (c :: (w2 ++ s)) = _
    rw [pySplitP, if_neg (by simp [hc]), ih2]
    simp

theorem pySplitP_sepfree (p : Char → Bool) (w : List Char)
    (hw : ∀ x ∈ w, p x = false) : pySplitP p w = [w] := by
  have h := pySplitP_sepfree_append p w [] hw
  simpa [pySplitP] using h

theorem splitSp_single {w : List Char} (hw : ∀ x ∈ w, ¬x = ' ') :
    splitSp w = [w] := by
  rw [splitSp, pySplitP_sepfree]
  intro x hx
  simp [hw x hx]

theorem splitSp_pair {w1 w2 : List Char} (h1 : ∀ x ∈ w1, ¬x = ' ')
    (h2 : ∀ x ∈ w2, ¬x = ' ') :
    splitSp (w1 ++ ' ' :: w2) = [w1, w2] := by
  rw [splitSp, pySplitP_sepfree_append _ w1 (' ' :: w2)
    (by intro x hx; simp [h1 x hx])]
  have hs : pySplitP (fun c => c = ' ') (' ' :: w2)
      = [] :: pySplitP (fun c => c = ' ') w2 := by
    simp [pySplitP]
  rw [hs]
  have hw2 : pySplitP (fun c => c = ' ') w2 = [w2] := by
    apply pySplitP_sepfree
    intro x hx
    simp [h2 x hx]
  rw [hw2]
  simp

/-! ## The CHAT alignment engine

Embedding of the per-record word and morpheme construction of
`CHATParser.next_utterance` (`acqdiv/parsers/xml/CHATParser.py`,
lines 88-256).  The reader and cleaner a parser dispatches to are
polymorphic per corpus; they enter the embedding as explicit records of
functions, mirroring the `self.reader` / `self.cleaner` method calls.
The metadata fields of the utterance dictionary (source id, speaker,
times, translation, comments) are plain pass-throughs of reader getters
outside the alignment logic and are not reproduced. -/

/-- Python `x if x else None` on strings. -/
def optStr (s : List Char) : Option (List Char) :=
  if s = [] then none else some s

/-- The reader interface slice used by `next_utterance`
(`CorpusReaderInterface`, morphology section). -/
structure Reader where
  getUtteranceWords : List Char → List (List Char)
  getSegWords : List Char → List (List Char)
  getGlossWords : List Char → List (List Char)
  getPosWords : List Char → List (List Char)
  getSegments : List Char → List (List Char)
  getGlosses : List Char → List (List Char)
  getPoses : List Char → List (List Char)
  getMainMorpheme : List Char
  getStandardForm : List Char
  getWordLanguage : List Char → List Char
  getMorphemeLanguage : List Char → List Char → List Char → List Char

/-- The cleaner interface slice used by `next_utterance`. -/
structure Cleaner where
  cleanUtterance : List Char → List Char
  cleanSegTier : List Char → List Char
  cleanGlossTier : List Char → List Char
  cleanPosTier : List Char → List Char
  crossClean : List Char → List Char → List Char → List Char → List Char →
    List Char × List Char × List Char × List Char × List Char
  cleanWord : List Char → List Char
  cleanSegWord : List Char → List Char
  cleanGlossWord : List Char → List Char
  cleanPosWord : List Char → List Char
  cleanSegment : List Char → List Char
  cleanGloss : List Char → List Char
  cleanPos : List Char → List Char

/-- The tier content of one loaded CHAT record, as returned by the
reader's getters. -/
structure ChatRecord where
  actualUtt : List Char
  targetUtt : List Char
  segTier : List Char
  glossTier : List Char
  posTier : List Char

/-- One word dictionary of `next_utterance` (lines 129-135). -/
structure WordRec where
  wordLanguage : Option (List Char)
  word : List Char
  wordActual : List Char
  wordTarget : List Char
  warning : Option (List Char)
deriving DecidableEq

/-- One morpheme dictionary of `next_utterance` (lines 245-251). -/
structure MorphemeRec where
  morphemeLanguage : Option (List Char)
  morpheme : Option (List Char)
  glossRaw : Option (List Char)
  posRaw : Option (List Char)
deriving DecidableEq

/-- The tier-derived slice of the utterance dictionary of
`next_utterance` (lines 141-156). -/
structure UtteranceRec where
  utterance : Option (List Char)
  morphemeField : Option (List Char)
  glossRawField : Option (List Char)
  posRawField : Option (List Char)
  warning : Option (List Char)
deriving DecidableEq

/-- Lines 88-109: clean the two utterance forms and the three morphology
tiers, then run the cleaner's `cross_clean` over all five. -/
def chatCross (cl : Cleaner) (inp : ChatRecord) :
    List Char × List Char × List Char × List Char × List Char :=
  cl.crossClean (cl.cleanUtterance inp.actualUtt)
    (cl.cleanUtterance inp.targetUtt)
    (cl.cleanSegTier inp.segTier)
    (cl.cleanGlossTier inp.glossTier)
    (cl.cleanPosTier inp.posTier)

/-- Lines 116-136: build one word dictionary from an actual/target word
pair. -/
def mkWordRec (rd : Reader) (cl : Cleaner) (wa wt : List Char) : WordRec :=
  let word0 := if rd.getStandardForm = "actual".toList then wa else wt
  { wordLanguage := optStr (rd.getWordLanguage word0)
    word := cl.cleanWord word0
    wordActual := cl.cleanWord wa
    wordTarget := cl.cleanWord wt
    warning := none }

/-- Lines 111-136: `zip(actual_words, target_words)` over the
tokenizations of the two repaired utterance forms. -/
def chatWords (rd : Reader) (cl : Cleaner) (inp : ChatRecord) :
    List WordRec :=
  let t := chatCross cl inp
  List.zipWith (mkWordRec rd cl) (rd.getUtteranceWords t.1)
    (rd.getUtteranceWords t.2.1)

/-- Lines 138-156: the utterance dictionary, rebuilt from the cleaned
words; its `warning` is set to `None` and never touched again. -/
def chatUtterance (rd : Reader) (cl : Cleaner) (inp : ChatRecord) :
    UtteranceRec :=
  { utterance := optStr (joinSp ((chatWords rd cl inp).map
      (fun w => w.word)))
    morphemeField := optStr inp.segTier
    glossRawField := optStr inp.glossTier
    posRawField := optStr inp.posTier
    warning := none }

/-- Lines 158-166: re-clean the three repaired morphology tiers and
tokenize them into morpheme words. -/
def chatTierWords (rd : Reader) (cl : Cleaner) (inp : ChatRecord) :
    List (List Char) × List (List Char) × List (List Char) :=
  let t := chatCross cl inp
  (rd.getSegWords (cl.cleanSegTier t.2.2.1),
   rd.getGlossWords (cl.cleanGlossTier t.2.2.2.1),
   rd.getPosWords (cl.cleanPosTier t.2.2.2.2))

/-- Lines 168-183: the reference word count: the main morphology tier's
word count, the other of segment/gloss when that is zero, and the POS
tier's only when both are zero. -/
def chatWlen (rd : Reader) (cl : Cleaner) (inp : ChatRecord) : Nat :=
  let q := chatTierWords rd cl inp
  let wlen0 :=
    if rd.getMainMorpheme = "segment".toList then
      if q.1.length ≠ 0 then q.1.length else q.2.1.length
    else
      if q.2.1.length ≠ 0 then q.2.1.length else q.1.length
  if wlen0 = 0 then q.2.2.length else wlen0

/-- Lines 185-192 and 225-232: a tier whose length disagrees with the
reference count is replaced by that many empty strings. -/
def substTier (n : Nat) (ws : List (List Char)) : List (List Char) :=
  if n ≠ ws.length then List.replicate n [] else ws

/-- Lines 235-252: build one morpheme dictionary; the morpheme language
is read off the uncleaned morphemes, the stored fields are cleaned and
nulled when empty. -/
def mkMorphemeRec (rd : Reader) (cl : Cleaner) (seg gloss pos : List Char) :
    MorphemeRec :=
  { morphemeLanguage := optStr (rd.getMorphemeLanguage seg gloss pos)
    morpheme := optStr (cl.cleanSegment seg)
    glossRaw := optStr (cl.cleanGloss gloss)
    posRaw := optStr (cl.cleanPos pos) }

/-- Lines 211-223: the per-word reference morpheme count. -/
def chatMlen (rd : Reader) (cl : Cleaner) (wseg wgloss wpos : List Char) :
    Nat :=
  let segments := rd.getSegments (cl.cleanSegWord wseg)
  let glosses := rd.getGlosses (cl.cleanGlossWord wgloss)
  let poses := rd.getPoses (cl.cleanPosWord wpos)
  let mlen0 :=
    if rd.getMainMorpheme = "segment".toList then
      if segments.length ≠ 0 then segments.length else glosses.length
    else
      if glosses.length ≠ 0 then glosses.length else segments.length
  if mlen0 = 0 then poses.length else mlen0

/-- Lines 197-254: the morpheme dictionaries of one morpheme word. -/
def chatWordMorphemes (rd : Reader) (cl : Cleaner)
    (wseg wgloss wpos : List Char) : List MorphemeRec :=
  let segments := rd.getSegments (cl.cleanSegWord wseg)
  let glosses := rd.getGlosses (cl.cleanGlossWord wgloss)
  let poses := rd.getPoses (cl.cleanPosWord wpos)
  let mlen := chatMlen rd cl wseg wgloss wpos
  List.zipWith3 (mkMorphemeRec rd cl) (substTier mlen segments)
    (substTier mlen glosses) (substTier mlen poses)

/-- Lines 164-254: the morpheme structure of one record: tier words,
reference count, substitution on word-count mismatch, and the per-word
zip. -/
def chatMorphemes (rd : Reader) (cl : Cleaner) (inp : ChatRecord) :
    List (List MorphemeRec) :=
  let q := chatTierWords rd cl inp
  let wlen := chatWlen rd cl inp
  List.zipWith3 (chatWordMorphemes rd cl) (substTier wlen q.1)
    (substTier wlen q.2.1) (substTier wlen q.2.2)

/-- One yielded triple of `CHATParser.next_utterance`. -/
def nextUtterance (rd : Reader) (cl : Cleaner) (inp : ChatRecord) :
    UtteranceRec × List WordRec × List (List MorphemeRec) :=
  (chatUtterance rd cl inp, chatWords rd cl inp, chatMorphemes rd cl inp)

/-- Modelled from the spec: `ACQDIVCHATReader` is not among the staged
source files (only its interface `CorpusReaderInterface`, its unit tests
and its caller `CHATParser` are).  Following the spec (word boundaries
default to whitespace; morpheme boundaries default to the hyphen
separator) and the unit tests (`test_get_utterance_words_empty_string`,
`test_get_morpheme_words_multiple_whitespaces`, `test_get_morphemes`,
`test_get_main_morpheme`): words are whitespace-collapsed splits,
morphemes split on the hyphen, the main morpheme tier is the gloss tier
and the standard form is the actual form; word and morpheme languages
are empty strings. -/
def baseReader : Reader :=
  { getUtteranceWords := pySplitWS
    getSegWords := pySplitWS
    getGlossWords := pySplitWS
    getPosWords := pySplitWS
    getSegments := pySplitP (fun c => c = '-')
    getGlosses := pySplitP (fun c => c = '-')
    getPoses := pySplitP (fun c => c = '-')
    getMainMorpheme := "gloss".toList
    getStandardForm := "actual".toList
    getWordLanguage := fun _ => []
    getMorphemeLanguage := fun _ _ _ => [] }

/-- Modelled from the spec: the base `CHATCleaner` is not among the
staged source files.  The spec treats cleaning as a pluggable capability
required only to preserve tier word counts; the base cleaner's tier-,
word- and morpheme-level functions are modelled as identity
pass-throughs and its `cross_clean` as the identity on the five
tiers. -/
def baseCleaner : Cleaner :=
  { cleanUtterance := id
    cleanSegTier := id
    cleanGlossTier := id
    cleanPosTier := id
    crossClean := fun a t s g p => (a, t, s, g, p)
    cleanWord := id
    cleanSegWord := id
    cleanGlossWord := id
    cleanPosWord := id
    cleanSegment := id
    cleanGloss := id
    cleanPos := id }

/-! ## Toolbox structural compatibility

Embedding of `struct_eqv` (`acqdiv/parsers/toolbox.py`, lines 24-38),
over a universe of Python values covering the tier structures it is
applied to: strings and nested lists. -/

/-- A Python value as seen by `struct_eqv`: a string or a list. -/
inductive PyVal where
  | str : List Char → PyVal
  | list : List PyVal → PyVal

/-- `isinstance(v, list)`. -/
def pyIsList : PyVal → Bool
  | .list _ => true
  | .str _ => false

/-- `struct_eqv(xs, ys)`: equal length, and at every position where
either element is a list, both must be lists and recursively
`struct_eqv`; element content at non-list positions is never
inspected. -/
def structEqv (xs ys : List PyVal) : Bool :=
  if xs.length = ys.length then
    match xs, ys with
    | x :: xr, y :: yr =>
      if pyIsList x || pyIsList y then
        match x, y with
        | .list a, .list b => structEqv a b && structEqv xr yr
        | _, _ => false
      else structEqv xr yr
    | _, _ => true
  else false
termination_by sizeOf xs + sizeOf ys
decreasing_by
  all_goals simp_arith
  all_goals omega

/-- The nested word/morpheme shape of a value: list nesting with string
content erased. -/
inductive PyShape where
  | leaf : PyShape
  | node : List PyShape → PyShape

/-- The shape of a Python value. -/
def PyVal.shape : PyVal → PyShape
  | .str _ => .leaf
  | .list xs => .node (xs.attach.map (fun z => PyVal.shape z.1))
termination_by v => sizeOf v
decreasing_by
  have := List.sizeOf_lt_of_mem z.2
  simp
  omega

theorem PyVal.shape_str (s : List Char) : (PyVal.str s).shape = .leaf := by
  rw [PyVal.shape]

theorem PyVal.shape_list (xs : List PyVal) :
    (PyVal.list xs).shape = .node (xs.map PyVal.shape) := by
  rw [PyVal.shape]
  congr 1
  exact List.attach_map_val xs PyVal.shape

/-- `struct_eqv` holds exactly when the two lists have the same nested
shape (string content erased). -/
theorem structEqv_iff_shape (xs ys : List PyVal) :
    structEqv xs ys = true ↔ xs.map PyVal.shape = ys.map PyVal.shape := by
  induction xs, ys using structEqv.induct with
  | case1 xr yr a b hor hlen ih1 ih2 =>
    rw [structEqv.eq_def, if_pos hlen]
    show (if pyIsList (PyVal.list a) || pyIsList (PyVal.list b) then
        structEqv a b && structEqv xr yr
      else structEqv xr yr) = true ↔ _
    rw [if_pos hor, Bool.and_eq_true]
    simp only [List.map_cons, PyVal.shape_list, List.cons.injEq,
      PyShape.node.injEq]
    exact and_congr ih1 ih2
  | case2 x xr y yr hor hno hlen =>
    rw [structEqv.eq_def, if_pos hlen]
    cases x with
    | str sx =>
      cases y with
      | str sy => simp [pyIsList] at hor
      | list ly =>
        show false = true ↔ _
        simp only [List.map_cons, PyVal.shape_str, PyVal.shape_list]
        simp
    | list lx =>
      cases y with
      | str sy =>
        show false = true ↔ _
        simp only [List.map_cons, PyVal.shape_str, PyVal.shape_list]
        simp
      | list ly => exact (hno lx ly rfl rfl).elim
  | case3 x xr y yr hnor hlen ih =>
    rw [structEqv.eq_def, if_pos hlen]
    cases x with
    | str sx =>
      cases y with
      | str sy =>
        show structEqv xr yr = true ↔ _
        simp only [List.map_cons, PyVal.shape_str, List.cons.injEq,
          true_and]
        exact ih
      | list ly => simp [pyIsList] at hnor
    | list lx => simp [pyIsList] at hnor
  | case4 xs ys hlen hno =>
    cases xs with
    | nil =>
      cases ys with
      | nil =>
        rw [structEqv.eq_def, if_pos hlen]
        simp
      | cons y yr => simp at hlen
    | cons x xr =>
      cases ys with
      | nil => simp at hlen
      | cons y yr => exact (hno x xr y yr rfl rfl).elim
  | case5 xs ys hlen =>
    rw [structEqv.eq_def, if_neg hlen]
    simp only [Bool.false_eq_true, false_iff]
    intro h
    have hl := congrArg List.length h
    simp only [List.length_map] at hl
    exact hlen hl

theorem length_zipWith3 {α β γ δ : Type} (f : α → β → γ → δ) :
    ∀ (as : List α) (bs : List β) (cs : List γ),
      (List.zipWith3 f as bs cs).length
        = min as.length (min bs.length cs.length) := by
  intro as
  induction as with
  | nil => intro bs cs; simp [List.zipWith3]
  | cons a as ih =>
    intro bs cs
    cases bs with
    | nil => simp [List.zipWith3]
    | cons b bs =>
      cases cs with
      | nil => simp [List.zipWith3]
      | cons c cs =>
        simp only [List.zipWith3, List.length_cons, ih]
        omega

theorem mem_zipWith3 {α β γ δ : Type} (f : α → β → γ → δ) :
    ∀ (as : List α) (bs : List β) (cs : List γ) (x : δ),
      x ∈ List.zipWith3 f as bs cs →
        ∃ a b c, a ∈ as ∧ b ∈ bs ∧ c ∈ cs ∧ x = f a b c := by
  intro as
  induction as with
  | nil => intro bs cs x hx; simp [List.zipWith3] at hx
  | cons a as ih =>
    intro bs cs x hx
    cases bs with
    | nil => simp [List.zipWith3] at hx
    | cons b bs =>
      cases cs with
      | nil => simp [List.zipWith3] at hx
      | cons c cs =>
        simp only [List.zipWith3, List.mem_cons] at hx
        rcases hx with rfl | hx
        · exact ⟨a, b, c, List.mem_cons_self _ _, List.mem_cons_self _ _,
            List.mem_cons_self _ _, rfl⟩
        · rcases ih bs cs x hx with ⟨a2, b2, c2, ha, hb, hc, rfl⟩
          exact ⟨a2, b2, c2, List.mem_cons_of_mem _ ha,
            List.mem_cons_of_mem _ hb, List.mem_cons_of_mem _ hc, rfl⟩

theorem substTier_length (n : Nat) (ws : List (List Char)) :
    (substTier n ws).length = n := by
  rw [substTier]
  split
  · simp
  · rename_i h
    omega

theorem substTier_mem_nil {n : Nat} {ws : List (List Char)}
    (hws : ∀ w ∈ ws, w = ([] : List Char)) :
    ∀ c ∈ substTier n ws, c = [] := by
  rw [substTier]
  split
  · intro c hc
    exact List.eq_of_mem_replicate hc
  · exact hws

/-- The number of word-level morpheme groups built by `next_utterance`
always equals the reference word count. -/
theorem chatMorphemes_length (rd : Reader) (cl : Cleaner)
    (inp : ChatRecord) :
    (chatMorphemes rd cl inp).length = chatWlen rd cl inp := by
  rw [chatMorphemes, length_zipWith3, substTier_length, substTier_length,
    substTier_length]
  simp

/-- The number of morpheme dictionaries built for one morpheme word
always equals the per-word reference morpheme count. -/
theorem chatWordMorphemes_length (rd : Reader) (cl : Cleaner)
    (wseg wgloss wpos : List Char) :
    (chatWordMorphemes rd cl wseg wgloss wpos).length
      = chatMlen rd cl wseg wgloss wpos := by
  rw [chatWordMorphemes, length_zipWith3, substTier_length, substTier_length,
    substTier_length]
  simp

theorem chatWordMorphemes_base_posRaw_none (wseg wgloss : List Char) :
    ∀ m ∈ chatWordMorphemes baseReader baseCleaner wseg wgloss [],
      m.posRaw = none := by
  intro m hm
  rw [chatWordMorphemes] at hm
  rcases mem_zipWith3 _ _ _ _ _ hm with ⟨a, b, c, ha, hb, hc, rfl⟩
  have hposes : ∀ w ∈ (baseReader.getPoses (baseCleaner.cleanPosWord [])),
      w = ([] : List Char) := by
    intro w hw
    simp [baseReader, baseCleaner, pySplitP] at hw
    exact hw
  have hc0 : c = [] := substTier_mem_nil hposes c hc
  subst hc0
  rw [mkMorphemeRec]
  simp [baseCleaner, optStr]

/-- When the POS tier's word count disagrees with the reference count,
every morpheme of every word of the record carries a null `pos_raw`
(base reader/cleaner model). -/
theorem chatMorphemes_base_pos_mismatch (inp : ChatRecord)
    (hmis : (chatTierWords baseReader baseCleaner inp).2.2.length
      ≠ chatWlen baseReader baseCleaner inp) :
    ∀ g ∈ chatMorphemes baseReader baseCleaner inp, ∀ m ∈ g,
      m.posRaw = none := by
  intro g hg m hm
  rw [chatMorphemes] at hg
  rcases mem_zipWith3 _ _ _ _ _ hg with ⟨a, b, c, ha, hb, hc, rfl⟩
  have hsub : substTier (chatWlen baseReader baseCleaner inp)
      (chatTierWords baseReader baseCleaner inp).2.2
      = List.replicate (chatWlen baseReader baseCleaner inp) [] := by
    rw [substTier, if_pos (fun he => hmis he.symm)]
  rw [hsub] at hc
  have hc0 : c = [] := List.eq_of_mem_replicate hc
  subst hc0
  exact chatWordMorphemes_base_posRaw_none a b m hm

theorem chatWords_length (rd : Reader) (cl : Cleaner) (inp : ChatRecord) :
    (chatWords rd cl inp).length
      = min (rd.getUtteranceWords (chatCross cl inp).1).length
          (rd.getUtteranceWords (chatCross cl inp).2.1).length := by
  rw [chatWords, List.length_zipWith]

theorem chatWords_getD (rd : Reader) (cl : Cleaner) (inp : ChatRecord)
    (i : Nat) (d : WordRec)
    (h1 : i < (rd.getUtteranceWords (chatCross cl inp).1).length)
    (h2 : i < (rd.getUtteranceWords (chatCross cl inp).2.1).length) :
    (chatWords rd cl inp).getD i d
      = mkWordRec rd cl
          ((rd.getUtteranceWords (chatCross cl inp).1).getD i [])
          ((rd.getUtteranceWords (chatCross cl inp).2.1).getD i []) := by
  show (List.zipWith (mkWordRec rd cl)
      (rd.getUtteranceWords (chatCross cl inp).1)
      (rd.getUtteranceWords (chatCross cl inp).2.1)).getD i d = _
  have hz : i < (List.zipWith (mkWordRec rd cl)
      (rd.getUtteranceWords (chatCross cl inp).1)
      (rd.getUtteranceWords (chatCross cl inp).2.1)).length := by
    rw [List.length_zipWith]
    omega
  rw [List.getD_eq_getElem _ _ hz, List.getElem_zipWith,
    List.getD_eq_getElem _ _ h1, List.getD_eq_getElem _ _ h2]

theorem zipWith3_getD {α β γ δ : Type} (f : α → β → γ → δ)
    (da : α) (db : β) (dc : γ) (d : δ) :
    ∀ (as : List α) (bs : List β) (cs : List γ) (i : Nat),
      i < as.length → i < bs.length → i < cs.length →
      (List.zipWith3 f as bs cs).getD i d
        = f (as.getD i da) (bs.getD i db) (cs.getD i dc) := by
  intro as
  induction as with
  | nil => intro bs cs i h1; simp at h1
  | cons a as ih =>
    intro bs cs i h1 h2 h3
    cases bs with
    | nil => simp at h2
    | cons b bs =>
      cases cs with
      | nil => simp at h3
      | cons c cs =>
        cases i with
        | zero => rfl
        | succ k =>
          simp only [List.zipWith3, List.getD_cons_succ]
          exact ih bs cs k (by simpa using h1) (by simpa using h2)
            (by simpa using h3)

theorem getD_tail_mem {l : List (List Char)} {j : Nat}
    (h1 : 1 ≤ j) (h2 : j < l.length) : l.getD j [] ∈ l.tail := by
  cases l with
  | nil => simp at h2
  | cons a t =>
    cases j with
    | zero => omega
    | succ k =>
      simp only [List.getD_cons_succ, List.tail_cons]
      have hk : k < t.length := by simpa using h2
      rw [List.getD_eq_getElem _ _ hk]
      exact List.getElem_mem hk

theorem replaceAt_singleton (x : List Char) (pieces : List (List Char)) :
    replaceAt [x] 0 pieces = pieces := by
  simp [replaceAt]

/-! ## Claim theorems -/

/-- C4.  Structural compatibility: `struct_eqv` returns true exactly when
the two nested lists have equal length and, recursively, equal length at
every corresponding position (equal shapes with string content erased);
on lists of unequal length it returns false rather than raising, and
element content at non-list positions never affects the result. -/
theorem claim_struct_eqv_shape (xs ys : List PyVal) :
    (structEqv xs ys = true ↔ xs.map PyVal.shape = ys.map PyVal.shape) ∧
    (xs.length ≠ ys.length → structEqv xs ys = false) := by
  refine ⟨structEqv_iff_shape xs ys, ?_⟩
  intro hlen
  cases h : structEqv xs ys with
  | false => rfl
  | true =>
    have hsh := (structEqv_iff_shape xs ys).mp h
    have := congrArg List.length hsh
    simp only [List.length_map] at this
    exact absurd this hlen

/-- C9.  Untranscribed unification preserves word count: both the
TurkishCleaner substitution
(`(^|\s)(xxx|y{3,}|www)(\s|$|\.)` replaced by `\1???\3`) and the Toolbox
`clean_utterance` substitution (`xxx?|www|\*{3}` replaced by `???`)
leave the whitespace-separated token count of every string unchanged. -/
theorem claim_untranscribed_token_count (s : List Char) :
    (pySplitWS (unifyUntranscribed s)).length = (pySplitWS s).length ∧
    (pySplitWS (toolboxSub s)).length = (pySplitWS s).length := by
  constructor
  · rw [length_pySplitWS, length_pySplitWS, countTokens, countTokens,
      unifyUntranscribed]
    exact ctAux_unifyGo true s false
  · rw [length_pySplitWS, length_pySplitWS, countTokens, countTokens]
    exact ctAux_toolboxSub s false

/-- C3.  Reference-tier selection: at word level, the number of
word-level morpheme groups equals the word count of the tier designated
by `get_main_morpheme()`; when that count is zero the other of
segment/gloss is used, and the POS tier's count only when both are zero.
At morpheme level, each output group is built from the substituted tier
words at its position, and the number of morpheme dictionaries built for
any morpheme word triple equals the main tier's morpheme count, the
other of segment/gloss when that is zero, and the POS word's count only
when both are zero. -/
theorem claim_reference_selection (rd : Reader) (cl : Cleaner)
    (inp : ChatRecord) :
    ((chatMorphemes rd cl inp).length =
      (if (if rd.getMainMorpheme = "segment".toList then
            (chatTierWords rd cl inp).1
          else (chatTierWords rd cl inp).2.1).length ≠ 0 then
        (if rd.getMainMorpheme = "segment".toList then
            (chatTierWords rd cl inp).1
          else (chatTierWords rd cl inp).2.1).length
      else if (if rd.getMainMorpheme = "segment".toList then
            (chatTierWords rd cl inp).2.1
          else (chatTierWords rd cl inp).1).length ≠ 0 then
        (if rd.getMainMorpheme = "segment".toList then
            (chatTierWords rd cl inp).2.1
          else (chatTierWords rd cl inp).1).length
      else (chatTierWords rd cl inp).2.2.length)) ∧
    (∀ i, i < chatWlen rd cl inp →
      (chatMorphemes rd cl inp).getD i []
        = chatWordMorphemes rd cl
            ((substTier (chatWlen rd cl inp)
              (chatTierWords rd cl inp).1).getD i [])
            ((substTier (chatWlen rd cl inp)
              (chatTierWords rd cl inp).2.1).getD i [])
            ((substTier (chatWlen rd cl inp)
              (chatTierWords rd cl inp).2.2).getD i [])) ∧
    (∀ wseg wgloss wpos : List Char,
      (chatWordMorphemes rd cl wseg wgloss wpos).length =
        (if (if rd.getMainMorpheme = "segment".toList then
              rd.getSegments (cl.cleanSegWord wseg)
            else rd.getGlosses (cl.cleanGlossWord wgloss)).length ≠ 0 then
          (if rd.getMainMorpheme = "segment".toList then
              rd.getSegments (cl.cleanSegWord wseg)
            else rd.getGlosses (cl.cleanGlossWord wgloss)).length
        else if (if rd.getMainMorpheme = "segment".toList then
              rd.getGlosses (cl.cleanGlossWord wgloss)
            else rd.getSegments (cl.cleanSegWord wseg)).length ≠ 0 then
          (if rd.getMainMorpheme = "segment".toList then
              rd.getGlosses (cl.cleanGlossWord wgloss)
            else rd.getSegments (cl.cleanSegWord wseg)).length
        else (rd.getPoses (cl.cleanPosWord wpos)).length)) := by
  refine ⟨?_, ?_, ?_⟩
  · rw [chatMorphemes_length, chatWlen]
    by_cases hm : rd.getMainMorpheme = "segment".toList
    · simp only [hm, if_pos rfl, if_true]
      split_ifs <;> omega
    · simp only [if_neg hm]
      split_ifs <;> omega
  · intro i hi
    have h1 : i < (substTier (chatWlen rd cl inp)
        (chatTierWords rd cl inp).1).length := by
      rw [substTier_length]; exact hi
    have h2 : i < (substTier (chatWlen rd cl inp)
        (chatTierWords rd cl inp).2.1).length := by
      rw [substTier_length]; exact hi
    have h3 : i < (substTier (chatWlen rd cl inp)
        (chatTierWords rd cl inp).2.2).length := by
      rw [substTier_length]; exact hi
    rw [chatMorphemes, zipWith3_getD (chatWordMorphemes rd cl) [] [] [] []
      _ _ _ i h1 h2 h3]
  · intro wseg wgloss wpos
    rw [chatWordMorphemes_length, chatMlen]
    by_cases hm : rd.getMainMorpheme = "segment".toList
    · simp only [hm, if_pos rfl, if_true]
      split_ifs <;> omega
    · simp only [if_neg hm]
      split_ifs <;> omega

/-- C10.  Actual/target zip truncation: the Words list has length equal
to the minimum of the actual-form and target-form word counts; each
surviving position is built from position `i` of both forms (trailing
words of the longer form are dropped, not null-filled), and the rebuilt
utterance is the join of only the surviving words. -/
theorem claim_zip_truncation (rd : Reader) (cl : Cleaner)
    (inp : ChatRecord) :
    (chatWords rd cl inp).length
      = min (rd.getUtteranceWords (chatCross cl inp).1).length
          (rd.getUtteranceWords (chatCross cl inp).2.1).length ∧
    (∀ i d, i < (rd.getUtteranceWords (chatCross cl inp).1).length →
        i < (rd.getUtteranceWords (chatCross cl inp).2.1).length →
      ((chatWords rd cl inp).getD i d).wordActual
          = cl.cleanWord
              ((rd.getUtteranceWords (chatCross cl inp).1).getD i []) ∧
      ((chatWords rd cl inp).getD i d).wordTarget
          = cl.cleanWord
              ((rd.getUtteranceWords (chatCross cl inp).2.1).getD i [])) ∧
    (chatUtterance rd cl inp).utterance
      = optStr (joinSp ((chatWords rd cl inp).map (fun w => w.word))) := by
  refine ⟨chatWords_length rd cl inp, ?_, rfl⟩
  intro i d h1 h2
  rw [chatWords_getD rd cl inp i d h1 h2]
  exact ⟨rfl, rfl⟩

/-- A record whose utterance has two words while all morphology tiers
have three: the Words list and the reference tier count drift apart. -/
def recDrift : ChatRecord :=
  ⟨"a b".toList, "a b".toList, "x y z".toList, "x y z".toList,
   "x y z".toList⟩

/-- C1 counterexample: on `recDrift` the output has 2 Words (from the
utterance forms) but the reference tier word count is 3 — the number of
Words does not equal the reference tier's word count. -/
theorem claim_shape_invariant_cex :
    ((nextUtterance baseReader baseCleaner recDrift).2.1).length = 2 ∧
    chatWlen baseReader baseCleaner recDrift = 3 ∧
    ((nextUtterance baseReader baseCleaner recDrift).2.1).length
      ≠ chatWlen baseReader baseCleaner recDrift := by
  refine ⟨?_, ?_, ?_⟩ <;>
    simp [nextUtterance, chatWords, chatWlen, chatTierWords, chatCross,
      baseReader, baseCleaner, recDrift, pySplitWS, isPyWS]

/-- C1 amended.  Shape invariant, corrected: it is the list of
word-level morpheme groups (not the Words list, which follows the
utterance forms) whose length equals the reference tier word count after
repair; each group's morpheme count equals the per-word reference
morpheme count; and a tier that fails to match the reference count is
replaced by a same-length sequence of empty placeholders — never
truncated, never padded with content, and left unchanged when it
matches. -/
theorem claim_shape_invariant (rd : Reader) (cl : Cleaner)
    (inp : ChatRecord) :
    (chatMorphemes rd cl inp).length = chatWlen rd cl inp ∧
    (∀ i, i < chatWlen rd cl inp →
      ((chatMorphemes rd cl inp).getD i []).length
        = chatMlen rd cl
            ((substTier (chatWlen rd cl inp)
              (chatTierWords rd cl inp).1).getD i [])
            ((substTier (chatWlen rd cl inp)
              (chatTierWords rd cl inp).2.1).getD i [])
            ((substTier (chatWlen rd cl inp)
              (chatTierWords rd cl inp).2.2).getD i [])) ∧
    (∀ ws : List (List Char),
      (substTier (chatWlen rd cl inp) ws).length = chatWlen rd cl inp ∧
      (chatWlen rd cl inp ≠ ws.length →
        substTier (chatWlen rd cl inp) ws
          = List.replicate (chatWlen rd cl inp) []) ∧
      (chatWlen rd cl inp = ws.length →
        substTier (chatWlen rd cl inp) ws = ws)) := by
  refine ⟨chatMorphemes_length rd cl inp, ?_, ?_⟩
  · intro i hi
    have h1 : i < (substTier (chatWlen rd cl inp)
        (chatTierWords rd cl inp).1).length := by
      rw [substTier_length]; exact hi
    have h2 : i < (substTier (chatWlen rd cl inp)
        (chatTierWords rd cl inp).2.1).length := by
      rw [substTier_length]; exact hi
    have h3 : i < (substTier (chatWlen rd cl inp)
        (chatTierWords rd cl inp).2.2).length := by
      rw [substTier_length]; exact hi
    rw [chatMorphemes, zipWith3_getD (chatWordMorphemes rd cl) [] [] [] []
      _ _ _ i h1 h2 h3, chatWordMorphemes_length]
  · intro ws
    refine ⟨substTier_length _ ws, ?_, ?_⟩
    · intro hne
      rw [substTier, if_pos hne]
    · intro heq
      rw [substTier, if_neg (by omega)]

/-- A Scenario-C record: the reference (gloss) tier has 3 words, the POS
tier only 2 tokens. -/
def recPosMismatch : ChatRecord :=
  ⟨"w1 w2 w3".toList, "w1 w2 w3".toList, "".toList, "g1 g2 g3".toList,
   "p1 p2".toList⟩

/-- C2 counterexample: on a record with a genuine POS word-count
mismatch (reference count 3, POS count 2) the Utterance's warning field
is null — it does not contain a phrase naming the mismatched tier. -/
theorem claim_mismatch_warning_cex :
    (chatTierWords baseReader baseCleaner recPosMismatch).2.2.length = 2 ∧
    chatWlen baseReader baseCleaner recPosMismatch = 3 ∧
    (chatUtterance baseReader baseCleaner recPosMismatch).warning
      = none := by
  refine ⟨?_, ?_, rfl⟩ <;>
    simp [chatTierWords, chatWlen, chatCross, baseReader, baseCleaner,
      recPosMismatch, pySplitWS, isPyWS]

/-- C2 amended.  Mismatch substitution: whenever the POS tier's word
count disagrees with the reference count, the record still yields one
morpheme group per reference word, every morpheme's `pos_raw` is null,
and the mismatch is never raised — but no warning is attached either:
the Utterance's warning field stays null (the mismatch is only logged in
the Toolbox parser). -/
theorem claim_mismatch_substitution (inp : ChatRecord)
    (hmis : (chatTierWords baseReader baseCleaner inp).2.2.length
      ≠ chatWlen baseReader baseCleaner inp) :
    (chatMorphemes baseReader baseCleaner inp).length
      = chatWlen baseReader baseCleaner inp ∧
    (∀ g ∈ chatMorphemes baseReader baseCleaner inp, ∀ m ∈ g,
      m.posRaw = none) ∧
    (chatUtterance baseReader baseCleaner inp).warning = none :=
  ⟨chatMorphemes_length _ _ inp,
   chatMorphemes_base_pos_mismatch inp hmis, rfl⟩

/-- C2 witness: the amended mismatch-substitution theorem applied to the
Scenario-C record. -/
theorem claim_mismatch_substitution_witness :
    (chatMorphemes baseReader baseCleaner recPosMismatch).length
      = chatWlen baseReader baseCleaner recPosMismatch ∧
    (∀ g ∈ chatMorphemes baseReader baseCleaner recPosMismatch, ∀ m ∈ g,
      m.posRaw = none) ∧
    (chatUtterance baseReader baseCleaner recPosMismatch).warning
      = none :=
  claim_mismatch_substitution recPosMismatch
    (by simp [chatTierWords, chatWlen, chatCross, baseReader, baseCleaner,
      recPosMismatch, pySplitWS, isPyWS])

/-- C5.  Single-morphological-word repair: when a morphological word
holds a join separator, the orthographic word at the same position does
not, and the first two characters of both the current and the next
orthographic word occur in the morphological word, the two orthographic
tokens are merged with an underscore and the morphology tier is returned
unchanged. -/
theorem claim_single_morph_word (w1 w2 m : List Char)
    (h1 : ∀ c ∈ w1, ¬c = ' ') (h2 : ∀ c ∈ w2, ¬c = ' ')
    (hm : ∀ c ∈ m, ¬c = ' ')
    (hsep : hasJoinSep m = true) (hnosep : hasJoinSep w1 = false)
    (hp1 : isSubstr (w1.take 2) m = true)
    (hp2 : isSubstr (w2.take 2) m = true) :
    singleMorphWord (w1 ++ ' ' :: w2) m = (w1 ++ '_' :: w2, m) := by
  rw [singleMorphWord, splitSp_pair h1 h2, splitSp_single hm]
  have hc : singleCondB [w1, w2] [m] 0 = true := by
    simp [singleCondB, hsep, hnosep, hp1, hp2]
  rw [singleLoop_step_merge ⟨by simp, by simp⟩ hc]
  have hmg : mergeAt [w1, w2] 0 = [w1 ++ '_' :: w2] := by
    simp [mergeAt]
  rw [hmg, singleLoop_exit (by simp), joinSp]

/-- C5 witness: Scenario A, `"stem1 stem2"` with morphology word
`"POS|stem1_stem2-SFX"`. -/
theorem claim_single_morph_word_witness :
    singleMorphWord "stem1 stem2".toList "POS|stem1_stem2-SFX".toList
      = ("stem1_stem2".toList, "POS|stem1_stem2-SFX".toList) := by
  have h := claim_single_morph_word "stem1".toList "stem2".toList
    "POS|stem1_stem2-SFX".toList (by decide) (by decide) (by decide)
    (by decide) (by decide) (by decide) (by decide)
  have e1 : "stem1 stem2".toList
      = "stem1".toList ++ ' ' :: "stem2".toList := by decide
  have e2 : "stem1_stem2".toList
      = "stem1".toList ++ '_' :: "stem2".toList := by decide
  rw [e1, e2]
  exact h

/-- C6.  Separate-morphological-word repair: a morphological token whose
double POS tag matches `\S+?\|(\S+\|.*)` is replaced by the `[+_]`-split
pieces of the captured group — the whole complex's POS tag is discarded —
and an orthographic token joined by `+`/`_` is split correspondingly.
The hypothesis on the remaining pieces keeps the single left-to-right
scan from re-matching them. -/
theorem claim_separate_morph_word (w m g : List Char)
    (hw : ∀ c ∈ w, ¬c = ' ') (hm : ∀ c ∈ m, ¬c = ' ')
    (hg : doublePos m = some g)
    (htail : ∀ t ∈ (splitPU g).tail, doublePos t = none) :
    separateMorphWord w m
      = ((if hasJoinSep w then joinSp (splitPU w) else w),
         joinSp (splitPU g)) := by
  have hg0 : doublePos (([m] : List (List Char)).getD 0 []) = some g := hg
  have hno : ∀ j, 1 ≤ j → j < (splitPU g).length →
      doublePos ((splitPU g).getD j []) = none :=
    fun j hj hlt => htail _ (getD_tail_mem hj hlt)
  have hww : (if hasJoinSep (([w] : List (List Char)).getD 0 [])
      then replaceAt [w] 0 (splitPU (([w] : List (List Char)).getD 0 []))
      else [w]) = (if hasJoinSep w then splitPU w else [w]) := by
    show (if hasJoinSep w then replaceAt [w] 0 (splitPU w) else [w])
        = (if hasJoinSep w then splitPU w else [w])
    by_cases hj : hasJoinSep w
    · rw [if_pos hj, if_pos hj, replaceAt_singleton]
    · rw [if_neg hj, if_neg hj]
  have hs : sepLoop (splitSp w) (splitSp m) 0
      = ((if hasJoinSep w then splitPU w else [w]), splitPU g) := by
    rw [splitSp_single hw, splitSp_single hm,
      sepLoop_step_match ⟨by simp, by simp⟩ hg0,
      replaceAt_singleton m (splitPU g), hww]
    exact sepLoop_no_match_from _ _ 1 hno
  show (joinSp (sepLoop (splitSp w) (splitSp m) 0).1,
    joinSp (sepLoop (splitSp w) (splitSp m) 0).2) = _
  rw [hs]
  by_cases hj : hasJoinSep w
  · rw [if_pos hj, if_pos hj]
  · rw [if_neg hj, if_neg hj, joinSp]

/-- C6 witness: Scenario B,
`"wholePOS|stem1POS|stem1-SFX1_stem2POS|stem2-SFX2"` with joined
orthographic token `"stem1_stem2"`. -/
theorem claim_separate_morph_word_witness :
    separateMorphWord "stem1_stem2".toList
        "wholePOS|stem1POS|stem1-SFX1_stem2POS|stem2-SFX2".toList
      = ("stem1 stem2".toList,
         "stem1POS|stem1-SFX1 stem2POS|stem2-SFX2".toList) := by
  have h := claim_separate_morph_word "stem1_stem2".toList
    "wholePOS|stem1POS|stem1-SFX1_stem2POS|stem2-SFX2".toList
    "stem1POS|stem1-SFX1_stem2POS|stem2-SFX2".toList
    (by decide) (by decide) (by decide) (by decide)
  refine h.trans ?_
  decide

/-- C7 counterexample: one repair pass (as composed in `cross_clean`)
over the pair `("p", "A|B|C|D")` yields `("p", "B|C|D")`, and a second
application strips a further leading POS tag, yielding `("p", "C|D")` —
the pass is not idempotent. -/
theorem claim_repair_idempotence_cex :
    repairPass (repairPass "p".toList "A|B|C|D".toList).1
        (repairPass "p".toList "A|B|C|D".toList).2
      ≠ repairPass "p".toList "A|B|C|D".toList := by
  have e1 : repairPass "p".toList "A|B|C|D".toList
      = ("p".toList, "B|C|D".toList) := by
    simp [repairPass, singleMorphWord, separateMorphWord, singleLoop,
      sepLoop, splitSp, pySplitP, singleCondB, hasJoinSep, isSubstr,
      mergeAt, replaceAt, splitPU, doublePos, doublePosAux, hasSecondBar,
      scanBarInRun, isPyWS, joinSp]
  have e2 : repairPass "p".toList "B|C|D".toList
      = ("p".toList, "C|D".toList) := by
    simp [repairPass, singleMorphWord, separateMorphWord, singleLoop,
      sepLoop, splitSp, pySplitP, singleCondB, hasJoinSep, isSubstr,
      mergeAt, replaceAt, splitPU, doublePos, doublePosAux, hasSecondBar,
      scanBarInRun, isPyWS, joinSp]
  rw [e1]
  simp only [e2]
  decide

/-- C7 amended.  The repair pass is not idempotent in general (a second
application can strip a further leading POS tag from a multiply-tagged
morphological token); it returns its input unchanged — in particular, a
second application of the pass returns the first application's output
unchanged — whenever the merge guard of `single_morph_word` holds at no
scan position of that output and no token of its morphology tier matches
the double-POS pattern. -/
theorem claim_repair_idempotence (u m u1 m1 : List Char)
    (hpass : repairPass u m = (u1, m1))
    (hno1 : ∀ j, j < (splitSp m1).length →
      singleCondB (splitSp u1) (splitSp m1) j = false)
    (hno2 : ∀ w ∈ splitSp m1, doublePos w = none) :
    repairPass u1 m1 = (u1, m1) := by
  show separateMorphWord (singleMorphWord u1 m1).1
    (singleMorphWord u1 m1).2 = (u1, m1)
  rw [singleMorphWord_no_cond u1 m1 hno1]
  exact separateMorphWord_no_match u1 m1 hno2

/-- C7 witness: the repaired pair produced from `("p q", "X|a_b|c")` is
`("p q", "a b|c")`, on which a second pass is the identity. -/
theorem claim_repair_idempotence_witness :
    repairPass "p q".toList "a b|c".toList
      = ("p q".toList, "a b|c".toList) :=
  claim_repair_idempotence "p q".toList "X|a_b|c".toList "p q".toList
    "a b|c".toList
    (by simp [repairPass, singleMorphWord, separateMorphWord, singleLoop,
      sepLoop, splitSp, pySplitP, singleCondB, hasJoinSep, isSubstr,
      mergeAt, replaceAt, splitPU, doublePos, doublePosAux, hasSecondBar,
      scanBarInRun, isPyWS, joinSp])
    (by decide) (by decide)

/-- C8.  Repair totality and pass-through: both repairs are total
functions of their two string inputs, and whenever a repair's
precondition holds at no scan position — `single_morph_word`'s merge
guard everywhere false, respectively no morphology token matching the
double-POS pattern — the tier strings are returned unmodified. -/
theorem claim_repair_pass_through (u m : List Char) :
    ((∀ j, j < (splitSp m).length →
        singleCondB (splitSp u) (splitSp m) j = false) →
      singleMorphWord u m = (u, m)) ∧
    ((∀ w ∈ splitSp m, doublePos w = none) →
      separateMorphWord u m = (u, m)) :=
  ⟨singleMorphWord_no_cond u m, separateMorphWord_no_match u m⟩

/-- C8 witness: on the pair `("a b", "c d")` neither precondition holds
anywhere and both repairs return their input unchanged. -/
theorem claim_repair_pass_through_witness :
    singleMorphWord "a b".toList "c d".toList
        = ("a b".toList, "c d".toList) ∧
    separateMorphWord "a b".toList "c d".toList
        = ("a b".toList, "c d".toList) :=
  ⟨(claim_repair_pass_through "a b".toList "c d".toList).1 (by decide),
   (claim_repair_pass_through "a b".toList "c d".toList).2 (by decide)⟩
